import Mathlib

/-!
Verification of the parallel-arc tessellation core
(src/src/core/src/renderable/line/parallel.rs).

The embedding works over exact rationals (ℚ) in place of f64: every
arithmetic step of the source is translated literally, with the f64
constants PI and TWICE_PI becoming fixed rationals.  The collaborators
that the spec declares out of scope (the sky projection, the camera
aperture, and the vector routines normalize/angle2 from cgmath and
crate::math::vector) are abstracted into an `Externals` bundle; magnitude2,
vector subtraction and the 2D determinant are polynomial and are given
their concrete meaning.  Stateful pushes into the output vertex vector
become returned lists; every function additionally returns the number of
invocations of the external projection function it performed, so that
resource claims can be settled.  The `while` loop of `sub_valid_domain`
is translated as a fuel-indexed loop whose fuel provably suffices for
the loop to reach its exit condition.
-/

/-- Device coordinate in normalized device space (Vector2 of f64 in the source). -/
abbrev XYNDC : Type := ℚ × ℚ

/-- The f64 constant crate::math::PI, as an exact rational. -/
def PI : ℚ := 3.141592653589793

/-- The f64 constant crate::math::TWICE_PI. -/
def TWICE_PI : ℚ := 2 * PI

/-- Constant from parallel.rs: Angle(0.174533), i.e. 12 degrees. -/
def MAX_ANGLE_BEFORE_SUBDIVISION : ℚ := 0.174533

/-- Constant from parallel.rs. -/
def MAX_ITERATION : ℕ := 4

/-- Modelled from the spec: the collaborators consumed by this core but not
implemented by it (spec section 1 declares them out of scope, section 6 gives
their interface).  `proj lon lat` is the sky projection
crate::math::lonlat::proj for a fixed projection and camera: a pure partial
function returning an optional device vertex.  `aperture` is
camera.get_aperture().to_radians(), the field of view in radians.
`normalize` and `angle2` are the external unit-direction and
angle-between-vectors routines (cgmath / crate::math::vector); only their
results are inspected by the core, never their definitions. -/
structure Externals where
  proj : ℚ → ℚ → Option XYNDC
  aperture : ℚ
  normalize : XYNDC → XYNDC
  angle2 : XYNDC → XYNDC → ℚ

/-- Modelled from the spec: componentwise vector subtraction (cgmath). -/
def vsub (a b : XYNDC) : XYNDC := (a.1 - b.1, a.2 - b.2)

/-- Modelled from the spec: squared length of a 2D vector (cgmath magnitude2). -/
def magnitude2 (v : XYNDC) : ℚ := v.1 * v.1 + v.2 * v.2

/-- Modelled from the spec: the 2D cross product / determinant
(crate::math::vector::det). -/
def det (a b : XYNDC) : ℚ := a.1 * b.2 - a.2 * b.1

/-- The forward interval length computed at the top of `project`:
`if lon1 > lon2 { lon2 + TWICE_PI - lon1 } else { lon2 - lon1 }`. -/
def lon_len (lon1 lon2 : ℚ) : ℚ :=
  if lon1 > lon2 then lon2 + TWICE_PI - lon1 else lon2 - lon1

/-- The body of `subdivide` from parallel.rs.  The source recurses with
`iter + 1` under the guard `iter < MAX_ITERATION`; here the structurally
decreasing quantity `rem = MAX_ITERATION - iter` indexes the recursion, so
`rem = 0` is exactly `iter >= MAX_ITERATION`.  Besides the emitted vertex
list, the number of calls to the external projection is returned: three per
active invocation (p1, p2, pm are always projected before the match). -/
def subdivideAux (E : Externals) (lat : ℚ) : ℕ → ℚ → ℚ → List XYNDC × ℕ
  | 0, _, _ => ([], 0)
  | rem + 1, lon1, lon2 =>
    let p1o := E.proj lon1 lat
    let p2o := E.proj lon2 lat
    let lon0 := (lon1 + lon2) * 0.5
    let pmo := E.proj lon0 lat
    match p1o, pmo, p2o with
    | some p1, some pm, some p2 =>
      let ab := vsub pm p1
      let bc := vsub p2 pm
      let ab_l := magnitude2 ab
      let bc_l := magnitude2 bc
      let abn := E.normalize ab
      let bcn := E.normalize bc
      let theta := E.angle2 abn bcn
      if |theta| < MAX_ANGLE_BEFORE_SUBDIVISION then
        if |det abn bcn| < 1e-2 then ([p1, p2], 3)
        else ([p1, pm, pm, p2], 3)
      else if min ab_l bc_l / max ab_l bc_l < 0.1 then
        if ab_l < bc_l then ([p1, pm], 3) else ([pm, p2], 3)
      else
        let r1 := subdivideAux E lat rem lon1 lon0
        let r2 := subdivideAux E lat rem lon0 lon2
        (r1.1 ++ r2.1, 3 + r1.2 + r2.2)
    | _, _, _ => ([], 3)

/-- `subdivide(vertices, lat, lon1, lon2, camera, projection, iter)` from
parallel.rs, with the recursion depth re-expressed through the remaining
iteration budget `MAX_ITERATION - iter`. -/
def subdivide (E : Externals) (lat lon1 lon2 : ℚ) (iter : ℕ) : List XYNDC × ℕ :=
  subdivideAux E lat (MAX_ITERATION - iter) lon1 lon2

/-- The `for i in 0..num_vertices` loop of `subdivide_multi`, unrolled as
recursion on the number of completed iterations `i`. -/
def subdivideMultiGo (E : Externals) (lat lon_s dlon : ℚ) : ℕ → List XYNDC × ℕ
  | 0 => ([], 0)
  | i + 1 =>
    let acc := subdivideMultiGo E lat lon_s dlon i
    let lon1 := lon_s + (i : ℚ) * dlon
    let lon2 := lon1 + dlon
    let r := subdivide E lat lon1 lon2 0
    (acc.1 ++ r.1, acc.2 + r.2)

/-- `subdivide_multi` from parallel.rs: num_vertices = 5 equal seed
intervals, each refined by `subdivide` starting at depth 0. -/
def subdivide_multi (E : Externals) (lat lon_s lon_e : ℚ) : List XYNDC × ℕ :=
  let dlon := (lon_e - lon_s) / 5
  subdivideMultiGo E lat lon_s dlon 5

/-- The `while (l_valid - l_invalid).abs() > d_alpha` bisection loop of
`sub_valid_domain`, indexed by fuel.  When the guard fails the state is
returned unchanged, so the value is independent of any surplus fuel; one
projection probe is counted per executed iteration. -/
def bisectLoop (E : Externals) (lat d_alpha : ℚ) : ℕ → ℚ → ℚ → (ℚ × ℚ) × ℕ
  | 0, l_valid, l_invalid => ((l_valid, l_invalid), 0)
  | fuel + 1, l_valid, l_invalid =>
    if |l_valid - l_invalid| > d_alpha then
      let lm := (l_valid + l_invalid) * 0.5
      match E.proj lm lat with
      | some _ =>
        let r := bisectLoop E lat d_alpha fuel lm l_invalid
        (r.1, r.2 + 1)
      | none =>
        let r := bisectLoop E lat d_alpha fuel l_valid lm
        (r.1, r.2 + 1)
    else ((l_valid, l_invalid), 0)

/-- Fuel sufficient for the bisection loop to reach its exit condition: the
separation halves each iteration, so any `n` with `s / 2 ^ n ≤ d` suffices,
and `⌈s / d⌉.natAbs` is such an `n` whenever `d > 0`. -/
def bisectFuel (s d : ℚ) : ℕ :=
  if d ≤ 0 then 0 else (⌈s / d⌉).natAbs

/-- `sub_valid_domain` from parallel.rs: bisection between a projectable and
a non-projectable longitude down to tolerance aperture * 0.02, returning the
pair built from the original valid endpoint and the final valid bound,
ordered by which original bound was larger; the projection-probe count is
carried along. -/
def sub_valid_domain (E : Externals) (lat valid_lon invalid_lon : ℚ) : (ℚ × ℚ) × ℕ :=
  let d_alpha := E.aperture * 0.02
  let r := bisectLoop E lat d_alpha (bisectFuel |valid_lon - invalid_lon| d_alpha) valid_lon invalid_lon
  let l_valid := r.1.1
  (if valid_lon > invalid_lon then (l_valid, valid_lon) else (valid_lon, l_valid), r.2)

/-- The start-longitude rewrap of the antipodal-split branch of `project`:
`lon1` is shifted down by TWICE_PI exactly when `lon1 + PI >= TWICE_PI`
(the source mutates `lon1 -= TWICE_PI` in that case). -/
def wrapStart (lon1 : ℚ) : ℚ :=
  if lon1 + PI ≥ TWICE_PI then lon1 - TWICE_PI else lon1

/-- The non-splitting branch of `project` (the `else` of
`lon_len > PI + 1e-6`): normalize `lon2 = lon1 + lon_len`, shift both
endpoints down by TWICE_PI when `lon2` exceeds it, project both endpoints,
and dispatch on which of the two is defined.  This branch performs no
recursion into `project` itself. -/
def projectElse (E : Externals) (lat lon1 lon2 : ℚ) : List XYNDC × ℕ :=
  let lon2b := lon1 + lon_len lon1 lon2
  let lon1c := if lon2b > TWICE_PI then lon1 - TWICE_PI else lon1
  let lon2c := if lon2b > TWICE_PI then lon2b - TWICE_PI else lon2b
  match E.proj lon1c lat, E.proj lon2c lat with
  | some _, some _ =>
    let r := subdivide_multi E lat lon1c lon2c
    (r.1, 2 + r.2)
  | none, some _ =>
    let s := sub_valid_domain E lat lon2c lon1c
    let r := subdivide_multi E lat s.1.1 s.1.2
    (r.1, 2 + s.2 + r.2)
  | some _, none =>
    let s := sub_valid_domain E lat lon1c lon2c
    let r := subdivide_multi E lat s.1.1 s.1.2
    (r.1, 2 + s.2 + r.2)
  | none, none => ([], 2)

/-- `project` from parallel.rs, fuel-indexed.  The splitting branch
(`lon_len > PI + 1e-6`) recurses on the two halves `[lon1, mid]` and
`[mid, lon2]` with `mid = wrapStart lon1 + PI`; under the documented
precondition lon1, lon2 ∈ [0, TWICE_PI) both halves have forward length
at most PI, so fuel 2 always suffices (see `project`). -/
def projectF (E : Externals) : ℕ → ℚ → ℚ → ℚ → List XYNDC × ℕ
  | 0, _, _, _ => ([], 0)
  | fuel + 1, lat, lon1, lon2 =>
    if lon_len lon1 lon2 > PI + 1e-6 then
      let lon1b := wrapStart lon1
      let lon_mid := lon1b + PI
      let r1 := projectF E fuel lat lon1b lon_mid
      let r2 := projectF E fuel lat lon_mid lon2
      (r1.1 ++ r2.1, r1.2 + r2.2)
    else projectElse E lat lon1 lon2

/-- The entry point `project(lat, lon1, lon2, camera, projection)`: for
inputs meeting the documented precondition the antipodal split happens at
most once, so two fuel levels realize the full recursion of the source. -/
def project (E : Externals) (lat lon1 lon2 : ℚ) : List XYNDC × ℕ :=
  projectF E 2 lat lon1 lon2

/-- `is_in_lon_range(lon0, lon1, lon2)` from parallel.rs. -/
def is_in_lon_range (lon0 lon1 lon2 : ℚ) : Bool :=
  let dlon := lon2 - lon1
  if dlon < 0 then
    decide (dlon ≥ -PI) == (decide (lon2 ≤ lon0) && decide (lon0 < lon1))
  else
    decide (dlon ≤ PI) == (decide (lon1 ≤ lon0) && decide (lon0 < lon2))

/-- Every vertex of `l` is an output of the external projection at latitude
`lat`. -/
def fromProj (E : Externals) (lat : ℚ) (l : List XYNDC) : Prop :=
  ∀ v ∈ l, ∃ lon, E.proj lon lat = some v

/-- Concrete collaborator bundle: projection undefined everywhere. -/
def E_none : Externals := ⟨fun _ _ => none, 1, id, fun _ _ => 0⟩

/-- Concrete collaborator bundle: projection defined everywhere with a
single image point. -/
def E_all : Externals := ⟨fun _ _ => some (0, 0), 1, id, fun _ _ => 0⟩

/-- Concrete collaborator bundle with a hard domain edge at longitude 1:
the projection is defined exactly for lon < 1. -/
def E_dom (a : ℚ) : Externals :=
  ⟨fun lon _ => if lon < 1 then some (lon, 0) else none, a, id, fun _ _ => 0⟩

/-- Concrete collaborator bundle for the disparate-length branch of
`subdivide`: the three sample longitudes 0, 1, 2 project to p1 = (0, 0),
pm = (1, 0), p2 = (1, 4), so ab = (1, 0) and bc = (0, 4) make a genuine
right-angle turn with squared lengths 1 and 16.  The external routines are
instantiated faithfully at the two probed vectors: both have rational unit
directions, normalize maps (0, 4) to (0, 1) and leaves the already-unit
(1, 0) unchanged, and angle2 on the perpendicular unit pair
((1, 0), (0, 1)) returns the f64 value of pi/2, the true turn angle;
their values elsewhere are never consulted on this input. -/
def E_turn : Externals :=
  ⟨fun lon _ =>
    if lon = 0 then some (0, 0)
    else if lon = 1 then some (1, 0)
    else if lon = 2 then some (1, 4)
    else none,
   1,
   fun v => if v = (0, 4) then (0, 1) else v,
   fun a b => if a = (1, 0) ∧ b = (0, 1) then 1.5707963267948966 else 0⟩

/-! ## General lemmas about the embedding -/

/-- The vertex list emitted by a call to `fromProj` over an empty list. -/
theorem fromProj_nil (E : Externals) (lat : ℚ) : fromProj E lat [] := by
  intro v hv
  simp at hv

/-- `fromProj` is preserved by concatenation. -/
theorem fromProj_append {E : Externals} {lat : ℚ} {l1 l2 : List XYNDC}
    (h1 : fromProj E lat l1) (h2 : fromProj E lat l2) : fromProj E lat (l1 ++ l2) := by
  intro v hv
  rcases List.mem_append.mp hv with h | h
  exacts [h1 v h, h2 v h]

/-! ## C5: range of the forward interval length -/

/-- C5: for all longitudes a, b in [0, TWICE_PI), the forward interval
length computed by `project` (`lon_len`) lies in [0, TWICE_PI). -/
theorem lon_len_range (a b : ℚ) (h1 : 0 ≤ a) (h2 : a < TWICE_PI)
    (h3 : 0 ≤ b) (h4 : b < TWICE_PI) :
    0 ≤ lon_len a b ∧ lon_len a b < TWICE_PI := by
  unfold lon_len
  split_ifs with h
  · exact ⟨by linarith, by linarith⟩
  · exact ⟨by linarith [not_lt.mp h], by linarith⟩

/-- C5 witness: the range statement at the concrete pair (1, 2). -/
theorem lon_len_range_witness : 0 ≤ lon_len 1 2 ∧ lon_len 1 2 < TWICE_PI :=
  lon_len_range 1 2 (by norm_num) (by norm_num [TWICE_PI, PI]) (by norm_num)
    (by norm_num [TWICE_PI, PI])

/-! ## C4: semantics of is_in_lon_range -/

/-- C4: `is_in_lon_range` is the plain half-open range test
`lon1 <= lon0 < lon2` whenever the signed delta `lon2 - lon1` lies in
[0, PI], the mirrored test `lon2 <= lon0 < lon1` for a non-wrapping
descending interval (delta in [-PI, 0)), and on the wrapping interval
lon1 = 350 deg, lon2 = 10 deg (as radians) the point at 355 deg is inside
while the point at 180 deg is outside. -/
theorem is_in_lon_range_spec :
    (∀ lon0 lon1 lon2 : ℚ, 0 ≤ lon2 - lon1 → lon2 - lon1 ≤ PI →
      (is_in_lon_range lon0 lon1 lon2 = true ↔ (lon1 ≤ lon0 ∧ lon0 < lon2))) ∧
    (∀ lon0 lon1 lon2 : ℚ, -PI ≤ lon2 - lon1 → lon2 - lon1 < 0 →
      (is_in_lon_range lon0 lon1 lon2 = true ↔ (lon2 ≤ lon0 ∧ lon0 < lon1))) ∧
    is_in_lon_range ((355 / 180) * PI) ((350 / 180) * PI) ((10 / 180) * PI) = true ∧
    is_in_lon_range PI ((350 / 180) * PI) ((10 / 180) * PI) = false := by
  refine ⟨?_, ?_, ?_, ?_⟩
  · intro lon0 lon1 lon2 h0 h1
    simp only [is_in_lon_range]
    rw [if_neg (not_lt.mpr h0)]
    simp [decide_eq_true_eq, h1]
  · intro lon0 lon1 lon2 h0 h1
    simp only [is_in_lon_range]
    rw [if_pos h1]
    simp [decide_eq_true_eq, ge_iff_le, h0]
  · norm_num [is_in_lon_range, PI]
  · norm_num [is_in_lon_range, PI]

/-- C4 witness: the ascending branch applied at lon0 = 1, lon1 = 0,
lon2 = 2. -/
theorem is_in_lon_range_spec_witness : is_in_lon_range 1 0 2 = true :=
  (is_in_lon_range_spec.1 1 0 2 (by norm_num) (by norm_num [PI])).mpr (by norm_num)

/-! ## C1: the disparate-length branch of subdivide -/

/-- C1 (amended): in `subdivide`, when the three projected points are all
defined, the turn angle is not near-collinear, and
min(ab_l, bc_l) / max(ab_l, bc_l) < 0.1, exactly one segment is emitted and
it is the SHORTER of the two halves (p1→pm when ab_l < bc_l, else pm→p2);
the other half is neither emitted nor recursed into (the projection-call
count 3 witnesses that no recursive call was made). -/
theorem subdivide_disparate_emits_shorter (E : Externals) (lat lon1 lon2 : ℚ) (iter : ℕ)
    (p1 pm p2 : XYNDC)
    (hiter : iter < MAX_ITERATION)
    (h1 : E.proj lon1 lat = some p1)
    (hm : E.proj ((lon1 + lon2) * 0.5) lat = some pm)
    (h2 : E.proj lon2 lat = some p2)
    (htheta : ¬ |E.angle2 (E.normalize (vsub pm p1)) (E.normalize (vsub p2 pm))| <
      MAX_ANGLE_BEFORE_SUBDIVISION)
    (hratio : min (magnitude2 (vsub pm p1)) (magnitude2 (vsub p2 pm)) /
      max (magnitude2 (vsub pm p1)) (magnitude2 (vsub p2 pm)) < 0.1) :
    subdivide E lat lon1 lon2 iter =
      if magnitude2 (vsub pm p1) < magnitude2 (vsub p2 pm) then ([p1, pm], 3)
      else ([pm, p2], 3) := by
  obtain ⟨rem, hrem⟩ : ∃ rem, MAX_ITERATION - iter = rem + 1 :=
    ⟨MAX_ITERATION - iter - 1, by rw [show MAX_ITERATION = 4 from rfl] at hiter ⊢; omega⟩
  unfold subdivide
  rw [hrem]
  simp only [subdivideAux, h1, hm, h2]
  rw [if_neg htheta, if_pos hratio]

/-- C1 counterexample: with the projected points (0, 0), (1, 0), (1, 4) at
lon1 = 0, mid = 1, lon2 = 2 the turn angle is a true right angle (well
above the threshold) and the squared half-lengths are ab_l = 1 and
bc_l = 16, ratio 1/16 < 0.1; the single emitted segment is p1→pm, whose
squared length is strictly SMALLER than the other half's, and it differs
from the longer half pm→p2 — refuting the claim that the emitted segment
is the longer of the two halves. -/
theorem subdivide_disparate_cex :
    (subdivide E_turn 0 0 2 0).1 = [((0 : ℚ), (0 : ℚ)), ((1 : ℚ), (0 : ℚ))] ∧
    magnitude2 (vsub ((1 : ℚ), (0 : ℚ)) ((0 : ℚ), (0 : ℚ))) <
      magnitude2 (vsub ((1 : ℚ), (4 : ℚ)) ((1 : ℚ), (0 : ℚ))) ∧
    ([((0 : ℚ), (0 : ℚ)), ((1 : ℚ), (0 : ℚ))] : List XYNDC) ≠
      [((1 : ℚ), (0 : ℚ)), ((1 : ℚ), (4 : ℚ))] := by
  refine ⟨?_, by norm_num [magnitude2, vsub], by norm_num⟩
  norm_num [subdivide, subdivideAux, MAX_ITERATION, E_turn, vsub, magnitude2, det,
    MAX_ANGLE_BEFORE_SUBDIVISION, min_def, max_def, abs_div, abs_neg]

/-- C1 witness: the amended theorem applied to the concrete instance used
in the counterexample. -/
theorem subdivide_disparate_emits_shorter_witness :
    subdivide E_turn 0 0 2 0 =
      if magnitude2 (vsub ((1 : ℚ), (0 : ℚ)) ((0 : ℚ), (0 : ℚ))) <
          magnitude2 (vsub ((1 : ℚ), (4 : ℚ)) ((1 : ℚ), (0 : ℚ))) then
        ([((0 : ℚ), (0 : ℚ)), ((1 : ℚ), (0 : ℚ))], 3)
      else ([((1 : ℚ), (0 : ℚ)), ((1 : ℚ), (4 : ℚ))], 3) :=
  subdivide_disparate_emits_shorter E_turn 0 0 2 0 ((0 : ℚ), (0 : ℚ)) ((1 : ℚ), (0 : ℚ))
    ((1 : ℚ), (4 : ℚ)) (by norm_num [MAX_ITERATION]) (by norm_num [E_turn])
    (by norm_num [E_turn]) (by norm_num [E_turn])
    (by norm_num [E_turn, vsub, MAX_ANGLE_BEFORE_SUBDIVISION, abs_div, abs_neg])
    (by norm_num [E_turn, vsub, magnitude2, min_def, max_def])

/-! ## C7: both normalized endpoints undefined -/

/-- C7: when the forward length is at most PI + 1e-6 and the projection of
both normalized endpoints (after the possible TWICE_PI shift of step 3 of
`project`) is undefined, `project` returns the empty vertex sequence — there
is no error channel, the (None, None) match arm simply emits nothing. -/
theorem project_both_undefined_empty (E : Externals) (lat lon1 lon2 n1 n2 : ℚ)
    (hlen : lon_len lon1 lon2 ≤ PI + 1e-6)
    (hn1 : n1 = if lon1 + lon_len lon1 lon2 > TWICE_PI then lon1 - TWICE_PI else lon1)
    (hn2 : n2 = if lon1 + lon_len lon1 lon2 > TWICE_PI then lon1 + lon_len lon1 lon2 - TWICE_PI
      else lon1 + lon_len lon1 lon2)
    (h1 : E.proj n1 lat = none) (h2 : E.proj n2 lat = none) :
    (project E lat lon1 lon2).1 = [] := by
  have hsplit : ¬ lon_len lon1 lon2 > PI + 1e-6 := not_lt.mpr hlen
  show (projectF E (1 + 1) lat lon1 lon2).1 = []
  simp only [projectF, if_neg hsplit, projectElse]
  rw [← hn1, ← hn2, h1, h2]

/-- C7 witness: the nowhere-defined projection on the span [0, 1]. -/
theorem project_both_undefined_empty_witness : (project E_none 0 0 1).1 = [] :=
  project_both_undefined_empty E_none 0 0 1 0 1
    (by norm_num [lon_len, TWICE_PI, PI])
    (by norm_num [lon_len, TWICE_PI, PI])
    (by norm_num [lon_len, TWICE_PI, PI])
    rfl rfl

/-! ## C9: vertices are emitted in pairs -/

/-- Each branch of `subdivideAux` emits an even number of vertices. -/
theorem subdivideAux_even_len (E : Externals) (lat : ℚ) :
    ∀ (rem : ℕ) (lon1 lon2 : ℚ), Even (subdivideAux E lat rem lon1 lon2).1.length := by
  intro rem
  induction rem with
  | zero => intro lon1 lon2; exact ⟨0, rfl⟩
  | succ n ih =>
    intro lon1 lon2
    simp only [subdivideAux]
    rcases E.proj lon1 lat with _ | p1 <;>
      rcases E.proj ((lon1 + lon2) * 0.5) lat with _ | pm <;>
        rcases E.proj lon2 lat with _ | p2 <;>
          try exact ⟨0, rfl⟩
    dsimp only
    split_ifs
    · exact ⟨1, rfl⟩
    · exact ⟨2, rfl⟩
    · exact ⟨1, rfl⟩
    · exact ⟨1, rfl⟩
    · simp only [List.length_append]
      exact (ih _ _).add (ih _ _)

/-- The seed loop preserves even vertex counts. -/
theorem subdivideMultiGo_even_len (E : Externals) (lat lon_s dlon : ℚ) :
    ∀ i : ℕ, Even (subdivideMultiGo E lat lon_s dlon i).1.length := by
  intro i
  induction i with
  | zero => exact ⟨0, rfl⟩
  | succ n ih =>
    simp only [subdivideMultiGo, List.length_append]
    exact ih.add (subdivideAux_even_len E lat _ _ _)

/-- `subdivide_multi` emits an even number of vertices. -/
theorem subdivide_multi_even_len (E : Externals) (lat lon_s lon_e : ℚ) :
    Even (subdivide_multi E lat lon_s lon_e).1.length :=
  subdivideMultiGo_even_len E lat lon_s _ 5

/-- The non-splitting branch of `project` emits an even number of vertices. -/
theorem projectElse_even_len (E : Externals) (lat lon1 lon2 : ℚ) :
    Even (projectElse E lat lon1 lon2).1.length := by
  simp only [projectElse]
  rcases E.proj (if lon1 + lon_len lon1 lon2 > TWICE_PI then lon1 - TWICE_PI else lon1) lat
      with _ | v1 <;>
    rcases E.proj (if lon1 + lon_len lon1 lon2 > TWICE_PI then lon1 + lon_len lon1 lon2 - TWICE_PI
        else lon1 + lon_len lon1 lon2) lat with _ | v2
  · exact ⟨0, rfl⟩
  · exact subdivide_multi_even_len E lat _ _
  · exact subdivide_multi_even_len E lat _ _
  · exact subdivide_multi_even_len E lat _ _

/-- `projectF` emits an even number of vertices at every fuel level. -/
theorem projectF_even_len (E : Externals) :
    ∀ (fuel : ℕ) (lat lon1 lon2 : ℚ), Even (projectF E fuel lat lon1 lon2).1.length := by
  intro fuel
  induction fuel with
  | zero => intro lat lon1 lon2; exact ⟨0, rfl⟩
  | succ n ih =>
    intro lat lon1 lon2
    simp only [projectF]
    split_ifs
    · simp only [List.length_append]
      exact (ih _ _ _).add (ih _ _ _)
    · exact projectElse_even_len E lat lon1 lon2

/-- C9: for every input, the vertex sequence returned by `project` has even
length — vertices are only ever appended in (segment start, segment end)
pairs, so the output decomposes into complete segments. -/
theorem project_even_length (E : Externals) (lat lon1 lon2 : ℚ) :
    Even (project E lat lon1 lon2).1.length :=
  projectF_even_len E 2 lat lon1 lon2

/-! ## C10: vertex provenance -/

/-- Every vertex emitted by `subdivideAux` is an output of the external
projection at the requested latitude. -/
theorem subdivideAux_fromProj (E : Externals) (lat : ℚ) :
    ∀ (rem : ℕ) (lon1 lon2 : ℚ), fromProj E lat (subdivideAux E lat rem lon1 lon2).1 := by
  intro rem
  induction rem with
  | zero => intro lon1 lon2; exact fromProj_nil E lat
  | succ n ih =>
    intro lon1 lon2
    simp only [subdivideAux]
    rcases h1 : E.proj lon1 lat with _ | p1 <;>
      rcases hm : E.proj ((lon1 + lon2) * 0.5) lat with _ | pm <;>
        rcases h2 : E.proj lon2 lat with _ | p2 <;>
          try exact fromProj_nil E lat
    dsimp only
    split_ifs
    · intro v hv
      simp only [List.mem_cons, List.not_mem_nil, or_false] at hv
      rcases hv with rfl | rfl
      exacts [⟨lon1, h1⟩, ⟨lon2, h2⟩]
    · intro v hv
      simp only [List.mem_cons, List.not_mem_nil, or_false] at hv
      rcases hv with rfl | rfl | rfl | rfl
      exacts [⟨lon1, h1⟩, ⟨(lon1 + lon2) * 0.5, hm⟩, ⟨(lon1 + lon2) * 0.5, hm⟩, ⟨lon2, h2⟩]
    · intro v hv
      simp only [List.mem_cons, List.not_mem_nil, or_false] at hv
      rcases hv with rfl | rfl
      exacts [⟨lon1, h1⟩, ⟨(lon1 + lon2) * 0.5, hm⟩]
    · intro v hv
      simp only [List.mem_cons, List.not_mem_nil, or_false] at hv
      rcases hv with rfl | rfl
      exacts [⟨(lon1 + lon2) * 0.5, hm⟩, ⟨lon2, h2⟩]
    · exact fromProj_append (ih _ _) (ih _ _)

/-- The seed loop preserves the provenance invariant. -/
theorem subdivideMultiGo_fromProj (E : Externals) (lat lon_s dlon : ℚ) :
    ∀ i : ℕ, fromProj E lat (subdivideMultiGo E lat lon_s dlon i).1 := by
  intro i
  induction i with
  | zero => exact fromProj_nil E lat
  | succ n ih =>
    simp only [subdivideMultiGo]
    exact fromProj_append ih (subdivideAux_fromProj E lat _ _ _)

/-- All `subdivide_multi` vertices come from the projection. -/
theorem subdivide_multi_fromProj (E : Externals) (lat lon_s lon_e : ℚ) :
    fromProj E lat (subdivide_multi E lat lon_s lon_e).1 :=
  subdivideMultiGo_fromProj E lat lon_s _ 5

/-- All vertices of the non-splitting branch come from the projection. -/
theorem projectElse_fromProj (E : Externals) (lat lon1 lon2 : ℚ) :
    fromProj E lat (projectElse E lat lon1 lon2).1 := by
  simp only [projectElse]
  rcases E.proj (if lon1 + lon_len lon1 lon2 > TWICE_PI then lon1 - TWICE_PI else lon1) lat
      with _ | v1 <;>
    rcases E.proj (if lon1 + lon_len lon1 lon2 > TWICE_PI then lon1 + lon_len lon1 lon2 - TWICE_PI
        else lon1 + lon_len lon1 lon2) lat with _ | v2
  · exact fromProj_nil E lat
  · exact subdivide_multi_fromProj E lat _ _
  · exact subdivide_multi_fromProj E lat _ _
  · exact subdivide_multi_fromProj E lat _ _

/-- All `projectF` vertices come from the projection, for every fuel. -/
theorem projectF_fromProj (E : Externals) :
    ∀ (fuel : ℕ) (lat lon1 lon2 : ℚ), fromProj E lat (projectF E fuel lat lon1 lon2).1 := by
  intro fuel
  induction fuel with
  | zero => intro lat lon1 lon2; exact fromProj_nil E lat
  | succ n ih =>
    intro lat lon1 lon2
    simp only [projectF]
    split_ifs
    · exact fromProj_append (ih _ _ _) (ih _ _ _)
    · exact projectElse_fromProj E lat lon1 lon2

/-- C10: every vertex returned by `project` is a defined output of the
external projection function at the requested latitude: it equals
`proj lon lat = some v` for some longitude; device coordinates are never
fabricated, interpolated or altered. -/
theorem project_vertices_from_proj (E : Externals) (lat lon1 lon2 : ℚ) :
    ∀ v ∈ (project E lat lon1 lon2).1, ∃ lon, E.proj lon lat = some v :=
  projectF_fromProj E 2 lat lon1 lon2

/-- C10 witness: the provenance theorem applied to the first vertex of a
concrete run with the everywhere-defined constant projection. -/
theorem project_vertices_from_proj_witness :
    ∃ lon, E_all.proj lon 0 = some ((0 : ℚ), (0 : ℚ)) :=
  project_vertices_from_proj E_all 0 0 1 ((0 : ℚ), (0 : ℚ)) (by
    norm_num [project, projectF, projectElse, lon_len, TWICE_PI, PI, E_all, subdivide_multi,
      subdivideMultiGo, subdivide, subdivideAux, MAX_ITERATION, MAX_ANGLE_BEFORE_SUBDIVISION,
      vsub, magnitude2, det, min_def, max_def])

/-! ## C3: projection-call counts -/

/-- Projection-call count of the adaptive subdivision: at most 3 calls per
node over a binary recursion of depth rem, i.e. 3 * (2 ^ rem - 1). -/
theorem subdivideAux_count_le (E : Externals) (lat : ℚ) :
    ∀ (rem : ℕ) (lon1 lon2 : ℚ), (subdivideAux E lat rem lon1 lon2).2 ≤ 3 * (2 ^ rem - 1) := by
  intro rem
  induction rem with
  | zero => intro lon1 lon2; exact Nat.le_refl 0
  | succ n ih =>
    intro lon1 lon2
    have h2 : 0 < 2 ^ n := pow_pos (by norm_num) n
    have hp : 2 ^ (n + 1) = 2 ^ n * 2 := pow_succ 2 n
    simp only [subdivideAux]
    rcases E.proj lon1 lat with _ | p1 <;>
      rcases E.proj ((lon1 + lon2) * 0.5) lat with _ | pm <;>
        rcases E.proj lon2 lat with _ | p2 <;>
          try (dsimp only; omega)
    dsimp only
    split_ifs <;> try (dsimp only; omega)
    have i1 := ih lon1 ((lon1 + lon2) * 0.5)
    have i2 := ih ((lon1 + lon2) * 0.5) lon2
    try dsimp only
    omega

/-- Each seed interval contributes at most 45 = 3 * (2 ^ 4 - 1) calls. -/
theorem subdivideMultiGo_count_le (E : Externals) (lat lon_s dlon : ℚ) :
    ∀ i : ℕ, (subdivideMultiGo E lat lon_s dlon i).2 ≤ i * 45 := by
  intro i
  induction i with
  | zero => exact Nat.le_refl 0
  | succ n ih =>
    simp only [subdivideMultiGo, subdivide, MAX_ITERATION, Nat.sub_zero]
    have h := subdivideAux_count_le E lat 4 (lon_s + (n : ℚ) * dlon)
      (lon_s + (n : ℚ) * dlon + dlon)
    norm_num at h
    try dsimp only
    omega

/-- C3 (amended): one run of the Adaptive Subdivider (`subdivide_multi`,
5 seed intervals, depth cap 4, 3 projections per active node) invokes the
external projection at most 5 * 3 * (2 ^ 4 - 1) = 225 times — not 155; on
top of this a `project` call adds its 2 endpoint probes and, when an
endpoint is undefined, the bisection probes of the Domain Boundary
Locator. -/
theorem subdivide_multi_proj_count_le (E : Externals) (lat lon_s lon_e : ℚ) :
    (subdivide_multi E lat lon_s lon_e).2 ≤ 225 := by
  simp only [subdivide_multi]
  exact le_trans (subdivideMultiGo_count_le E lat lon_s _ 5) (by norm_num)

/-- Lower bound on executed bisection iterations (each making one
projection probe): as long as the separation still exceeds d_alpha * 2 ^ k,
at least k further iterations run, because the separation only halves once
per iteration. -/
theorem bisectLoop_count_ge (E : Externals) (lat d : ℚ) (hd : 0 < d) :
    ∀ (k fuel : ℕ) (lv li : ℚ), k ≤ fuel → d * 2 ^ k < |lv - li| →
      k ≤ (bisectLoop E lat d fuel lv li).2 := by
  intro k
  induction k with
  | zero => intro fuel lv li _ _; exact Nat.zero_le _
  | succ k ih =>
    intro fuel lv li hkf hsep
    obtain ⟨fuel2, rfl⟩ : ∃ f, fuel = f + 1 := ⟨fuel - 1, by omega⟩
    have hone2 : (1 : ℚ) ≤ 2 ^ k := by
      calc (1 : ℚ) = 1 ^ k := (one_pow k).symm
        _ ≤ 2 ^ k := pow_le_pow_left₀ (by norm_num) (by norm_num) k
    have hps : (2 : ℚ) ^ (k + 1) = 2 ^ k * 2 := pow_succ 2 k
    rw [hps] at hsep
    have key : d ≤ d * 2 ^ k := le_mul_of_one_le_right hd.le hone2
    have hg : |lv - li| > d := by nlinarith
    have habs2 : |(2 : ℚ)| = 2 := by norm_num
    simp only [bisectLoop]
    rw [if_pos hg]
    rcases hp : E.proj ((lv + li) * 0.5) lat with _ | v <;> try dsimp only
    · have hs2 : d * 2 ^ k < |lv - (lv + li) * 0.5| := by
        rw [show lv - (lv + li) * 0.5 = (lv - li) / 2 by ring, abs_div, habs2]
        nlinarith
      have := ih fuel2 lv ((lv + li) * 0.5) (by omega) hs2
      omega
    · have hs2 : d * 2 ^ k < |(lv + li) * 0.5 - li| := by
        rw [show (lv + li) * 0.5 - li = (lv - li) / 2 by ring, abs_div, habs2]
        nlinarith
      have := ih fuel2 ((lv + li) * 0.5) li (by omega) hs2
      omega

/-- C3 counterexample: no vector geometry is involved at all — on the span
[0, 2] with the edge-at-1 projection and the tiny but positive aperture
2 ^ (-160) (representable as an f64), the Domain Boundary Locator's
bisection alone performs at least 166 projection probes before its
separation reaches d_alpha = 2 ^ (-160) * 0.02, so one arc tessellation
makes more than 155 projection invocations. -/
theorem project_proj_count_cex :
    ¬ (project (E_dom (1 / 2 ^ 160)) 0 0 2).2 ≤ 155 := by
  have hl : lon_len 0 2 = 2 := by norm_num [lon_len]
  have hng : ¬ lon_len 0 2 > PI + 1e-6 := by rw [hl]; norm_num [PI]
  have hstep : projectF (E_dom (1 / 2 ^ 160)) (1 + 1) 0 0 2 =
      projectElse (E_dom (1 / 2 ^ 160)) 0 0 2 := by
    simp only [projectF, if_neg hng]
  show ¬ (projectF (E_dom (1 / 2 ^ 160)) (1 + 1) 0 0 2).2 ≤ 155
  rw [hstep]
  simp only [projectElse, hl]
  have hw : ¬ ((0 : ℚ) + 2 > TWICE_PI) := by norm_num [TWICE_PI, PI]
  simp only [if_neg hw]
  have hp1 : (E_dom (1 / 2 ^ 160)).proj 0 0 = some (0, 0) := by norm_num [E_dom]
  have hp2 : (E_dom (1 / 2 ^ 160)).proj (0 + 2) 0 = none := by norm_num [E_dom]
  simp only [hp1, hp2]
  try dsimp only
  have hsub : 166 ≤ (sub_valid_domain (E_dom (1 / 2 ^ 160)) 0 0 (0 + 2)).2 := by
    have ha : (E_dom (1 / 2 ^ 160)).aperture * 0.02 = 1 / (50 * 2 ^ 160) := by
      norm_num [E_dom]
    have habs : |(0 : ℚ) - (0 + 2)| = 2 := by norm_num
    have hfuel : bisectFuel 2 (1 / (50 * 2 ^ 160)) = 100 * 2 ^ 160 := by
      norm_num [bisectFuel]
    simp only [sub_valid_domain, ha, habs, hfuel]
    try dsimp only
    exact bisectLoop_count_ge (E_dom (1 / 2 ^ 160)) 0 (1 / (50 * 2 ^ 160))
      (by norm_num) 166 (100 * 2 ^ 160) 0 (0 + 2) (by norm_num)
      (by rw [habs]; norm_num)
  omega

/-! ## C8 and C2: the Domain Boundary Locator -/

/-- The separation of the bisection bounds halves at every executed
iteration, so after n steps it is at most max (initial / 2 ^ n) d_alpha. -/
theorem bisectLoop_sep (E : Externals) (lat d : ℚ) :
    ∀ (n : ℕ) (lv li : ℚ),
      |(bisectLoop E lat d n lv li).1.1 - (bisectLoop E lat d n lv li).1.2| ≤
        max (|lv - li| / 2 ^ n) d := by
  intro n
  induction n with
  | zero =>
    intro lv li
    simp [bisectLoop]
  | succ n ih =>
    intro lv li
    simp only [bisectLoop]
    by_cases hg : |lv - li| > d
    · rw [if_pos hg]
      have heq : |lv - li| / 2 / 2 ^ n = |lv - li| / 2 ^ (n + 1) := by
        rw [div_div, pow_succ, mul_comm]
      rcases hE : E.proj ((lv + li) * 0.5) lat with _ | v <;> try dsimp only
      · have hx : |lv - (lv + li) * 0.5| = |lv - li| / 2 := by
          rw [show lv - (lv + li) * 0.5 = (lv - li) / 2 by ring, abs_div]
          norm_num
        have h := ih lv ((lv + li) * 0.5)
        rw [hx, heq] at h
        exact h
      · have hy : |(lv + li) * 0.5 - li| = |lv - li| / 2 := by
          rw [show (lv + li) * 0.5 - li = (lv - li) / 2 by ring, abs_div]
          norm_num
        have h := ih ((lv + li) * 0.5) li
        rw [hy, heq] at h
        exact h
    · rw [if_neg hg]
      exact le_trans (not_lt.mp hg) (le_max_right _ _)

/-- For a projection with a hard domain edge at longitude L (defined exactly
for lon < L), the bisection loop keeps the valid bound strictly below L and
the invalid bound at or above L. -/
theorem bisectLoop_bracket (E : Externals) (lat d L : ℚ)
    (hdom : ∀ lon, (E.proj lon lat).isSome ↔ lon < L) :
    ∀ (n : ℕ) (lv li : ℚ), lv < L → L ≤ li →
      (bisectLoop E lat d n lv li).1.1 < L ∧ L ≤ (bisectLoop E lat d n lv li).1.2 := by
  intro n
  induction n with
  | zero => intro lv li h1 h2; exact ⟨h1, h2⟩
  | succ n ih =>
    intro lv li h1 h2
    simp only [bisectLoop]
    by_cases hg : |lv - li| > d
    · rw [if_pos hg]
      rcases hE : E.proj ((lv + li) * 0.5) lat with _ | v <;> try dsimp only
      · have hm : ¬ ((lv + li) * 0.5 < L) := by
          rw [← hdom]
          simp [hE]
        exact ih lv ((lv + li) * 0.5) h1 (not_lt.mp hm)
      · have hm : (lv + li) * 0.5 < L := by
          rw [← hdom]
          simp [hE]
        exact ih ((lv + li) * 0.5) li hm h2
    · rw [if_neg hg]
      exact ⟨h1, h2⟩

/-- The fuel chosen in the embedding makes the loop provably reach its exit
condition: s / 2 ^ bisectFuel s d ≤ d whenever d > 0. -/
theorem bisectFuel_spec (s d : ℚ) (hd : 0 < d) (_hs : 0 ≤ s) :
    s / 2 ^ bisectFuel s d ≤ d := by
  unfold bisectFuel
  rw [if_neg (not_le.mpr hd)]
  have h1 : s / d ≤ (⌈s / d⌉ : ℚ) := Int.le_ceil _
  have h2 : ((⌈s / d⌉ : ℤ) : ℚ) ≤ (2 : ℚ) ^ (⌈s / d⌉.natAbs) := by
    rcases le_or_lt (⌈s / d⌉) 0 with h | h
    · calc ((⌈s / d⌉ : ℤ) : ℚ) ≤ 0 := by exact_mod_cast h
        _ ≤ (2 : ℚ) ^ (⌈s / d⌉.natAbs) := by positivity
    · have h4 : ⌈s / d⌉ ≤ (2 : ℤ) ^ (⌈s / d⌉.natAbs) := by
        calc ⌈s / d⌉ = ((⌈s / d⌉.natAbs : ℤ)) := (Int.natAbs_of_nonneg h.le).symm
          _ ≤ (2 : ℤ) ^ (⌈s / d⌉.natAbs) := by exact_mod_cast (Nat.lt_two_pow (⌈s / d⌉.natAbs)).le
      exact_mod_cast h4
  have hpow : (0 : ℚ) < 2 ^ (⌈s / d⌉.natAbs) := by positivity
  rw [div_le_iff₀ hpow]
  have h3 : s ≤ 2 ^ (⌈s / d⌉.natAbs) * d := (div_le_iff₀ hd).mp (h1.trans h2)
  linarith

/-- C8: the bisection loop of the Domain Boundary Locator terminates: the
bound separation halves each iteration (bisectLoop_sep), so with the fuel
bound it reaches a state whose separation is at most
d_alpha = aperture * 0.02, which is exactly the loop exit condition of the
source `while`.  Requires a positive aperture, as the source implicitly
does. -/
theorem bisect_terminates_within_tolerance (E : Externals) (lat v i : ℚ)
    (hap : 0 < E.aperture) :
    |(bisectLoop E lat (E.aperture * 0.02) (bisectFuel |v - i| (E.aperture * 0.02)) v i).1.1 -
        (bisectLoop E lat (E.aperture * 0.02) (bisectFuel |v - i| (E.aperture * 0.02)) v i).1.2| ≤
      E.aperture * 0.02 := by
  have hd : 0 < E.aperture * 0.02 := mul_pos hap (by norm_num)
  exact le_trans
    (bisectLoop_sep E lat (E.aperture * 0.02) (bisectFuel |v - i| (E.aperture * 0.02)) v i)
    (max_le (bisectFuel_spec |v - i| (E.aperture * 0.02) hd (abs_nonneg _)) le_rfl)

/-- C8 witness: the loop on [0, 2] with the edge-at-1 projection and
aperture 25 ends with separation at most 0.5. -/
theorem bisect_terminates_within_tolerance_witness :
    |(bisectLoop (E_dom 25) 0 ((E_dom 25).aperture * 0.02)
        (bisectFuel |0 - 2| ((E_dom 25).aperture * 0.02)) 0 2).1.1 -
      (bisectLoop (E_dom 25) 0 ((E_dom 25).aperture * 0.02)
        (bisectFuel |0 - 2| ((E_dom 25).aperture * 0.02)) 0 2).1.2| ≤
      (E_dom 25).aperture * 0.02 :=
  bisect_terminates_within_tolerance (E_dom 25) 0 0 2 (by norm_num [E_dom])

/-- C2 (amended): for a projection defined exactly for lon < L and
validLon < L < invalidLon with positive aperture, `sub_valid_domain`
returns the pair (validLon, b) whose first component is the original valid
endpoint — the full safely-projectable sub-span — and whose second
component b, the final valid bound, satisfies b < L and L - b ≤ delta with
delta = aperture * 0.02.  It is the final bisection bracket [b, b + delta],
not the returned interval, that has width at most delta and contains L. -/
theorem sub_valid_domain_boundary (E : Externals) (lat L validLon invalidLon : ℚ)
    (hdom : ∀ lon, (E.proj lon lat).isSome ↔ lon < L)
    (hv : validLon < L) (hi : L < invalidLon)
    (_hsep : |validLon - invalidLon| < PI)
    (hap : 0 < E.aperture) :
    (sub_valid_domain E lat validLon invalidLon).1.1 = validLon ∧
    (sub_valid_domain E lat validLon invalidLon).1.2 < L ∧
    L - (sub_valid_domain E lat validLon invalidLon).1.2 ≤ E.aperture * 0.02 := by
  have hd : 0 < E.aperture * 0.02 := mul_pos hap (by norm_num)
  have hbr := bisectLoop_bracket E lat (E.aperture * 0.02) L hdom
    (bisectFuel |validLon - invalidLon| (E.aperture * 0.02)) validLon invalidLon hv
    (le_of_lt hi)
  have hsp := bisectLoop_sep E lat (E.aperture * 0.02)
    (bisectFuel |validLon - invalidLon| (E.aperture * 0.02)) validLon invalidLon
  have hfu := bisectFuel_spec |validLon - invalidLon| (E.aperture * 0.02) hd (abs_nonneg _)
  have hle := le_trans hsp (max_le hfu le_rfl)
  have hab := abs_le.mp hle
  have hno : ¬ validLon > invalidLon := by linarith
  simp only [sub_valid_domain]
  rw [if_neg hno]
  refine ⟨rfl, hbr.1, ?_⟩
  have h1 := hbr.1
  have h2 := hbr.2
  have h3 := hab.1
  dsimp only at h1 h2 h3 ⊢
  linarith

/-- C2 witness: the amended theorem at the edge-at-1 projection, aperture
25, validLon 0, invalidLon 2. -/
theorem sub_valid_domain_boundary_witness :
    (sub_valid_domain (E_dom 25) 0 0 2).1.1 = 0 ∧
    (sub_valid_domain (E_dom 25) 0 0 2).1.2 < 1 ∧
    1 - (sub_valid_domain (E_dom 25) 0 0 2).1.2 ≤ (E_dom 25).aperture * 0.02 :=
  sub_valid_domain_boundary (E_dom 25) 0 1 0 2
    (by intro lon; by_cases h : lon < (1 : ℚ) <;> simp [E_dom, h])
    (by norm_num) (by norm_num) (by norm_num [PI]) (by norm_num [E_dom])

/-- C2 counterexample: at the edge-at-1 projection with aperture 25
(delta = 0.5), validLon = 0.9 < L = 1 < invalidLon = 1.3, separation < PI —
all preconditions of the claim hold — the returned interval is (0.9, 0.9),
which does not contain L = 1; the claimed conjunction (width ≤ delta and
L inside the returned interval) is false. -/
theorem sub_valid_domain_interval_cex :
    (sub_valid_domain (E_dom 25) 0 0.9 1.3).1 = (0.9, 0.9) ∧
    (0.9 : ℚ) < 1 ∧ (1 : ℚ) < 1.3 ∧ |(0.9 : ℚ) - 1.3| < PI ∧ 0 < (E_dom 25).aperture ∧
    ¬ ((sub_valid_domain (E_dom 25) 0 0.9 1.3).1.2 - (sub_valid_domain (E_dom 25) 0 0.9 1.3).1.1 ≤
          (E_dom 25).aperture * 0.02 ∧
        (sub_valid_domain (E_dom 25) 0 0.9 1.3).1.1 ≤ 1 ∧
        1 ≤ (sub_valid_domain (E_dom 25) 0 0.9 1.3).1.2) := by
  have ha : (E_dom 25).aperture * 0.02 = 0.5 := by norm_num [E_dom]
  have hc : ⌈(4 : ℚ) / 5⌉ = 1 := by
    rw [Int.ceil_eq_iff]
    norm_num
  have hf : bisectFuel |(0.9 : ℚ) - 1.3| 0.5 = 1 := by
    norm_num [bisectFuel, abs_div, abs_neg, hc]
  have h : (sub_valid_domain (E_dom 25) 0 0.9 1.3).1 = (0.9, 0.9) := by
    simp only [sub_valid_domain, ha, hf]
    norm_num [bisectLoop, E_dom, abs_div, abs_neg]
  refine ⟨h, ?_, ?_, ?_, ?_, ?_⟩
  · norm_num
  · norm_num
  · norm_num [PI, abs_div, abs_neg]
  · norm_num [E_dom]
  · rw [h, ha]
    norm_num

/-! ## C6: the antipodal split of project -/

/-- In the non-splitting branch `projectF` consumes no fuel: any positive
fuel level equals `projectElse`. -/
theorem projectF_one (E : Externals) (fuel : ℕ) (lat a b : ℚ)
    (h : ¬ lon_len a b > PI + 1e-6) :
    projectF E (fuel + 1) lat a b = projectElse E lat a b := by
  simp only [projectF, if_neg h]

/-- C6: under the documented entry precondition lon1, lon2 in
[0, TWICE_PI), whenever the forward length exceeds PI + 1e-6, `project`
returns the concatenation — first half before second half — of the
recursive results on [lon1s, mid] and [mid, lon2], where
mid = lon1 + PI wrapped back into [0, TWICE_PI) and the start longitude
lon1s is lon1 shifted by -TWICE_PI exactly when lon1 + PI ≥ TWICE_PI;
moreover mid indeed lies in [0, TWICE_PI). -/
theorem project_antipodal_split (E : Externals) (lat lon1 lon2 mid lon1s : ℚ)
    (ha : 0 ≤ lon1) (hb : lon1 < TWICE_PI) (_hc : 0 ≤ lon2) (hd : lon2 < TWICE_PI)
    (hlen : lon_len lon1 lon2 > PI + 1e-6)
    (hmid : mid = if lon1 + PI ≥ TWICE_PI then lon1 - TWICE_PI + PI else lon1 + PI)
    (hstart : lon1s = if lon1 + PI ≥ TWICE_PI then lon1 - TWICE_PI else lon1) :
    (project E lat lon1 lon2).1 =
      (project E lat lon1s mid).1 ++ (project E lat mid lon2).1 ∧
    0 ≤ mid ∧ mid < TWICE_PI := by
  have hpi : (0 : ℚ) < PI := by norm_num [PI]
  have h2pi : TWICE_PI = 2 * PI := rfl
  have heps : (0 : ℚ) < 1e-6 := by norm_num
  have hws : lon1s = wrapStart lon1 := by rw [hstart]; rfl
  have hmideq : mid = lon1s + PI := by
    rw [hmid, hstart]
    by_cases hw : lon1 + PI ≥ TWICE_PI <;> simp [hw]
  have hlen1 : ¬ lon_len lon1s mid > PI + 1e-6 := by
    rw [hmideq]
    unfold lon_len
    rw [if_neg (by intro hcon; linarith : ¬ lon1s > lon1s + PI)]
    intro hcon
    linarith
  have hlen2 : ¬ lon_len mid lon2 > PI + 1e-6 := by
    unfold lon_len at hlen ⊢
    by_cases hw : lon1 + PI ≥ TWICE_PI
    · have hm : mid = lon1 - PI := by rw [hmid, if_pos hw, h2pi]; ring
      rw [hm]
      by_cases ho : lon1 > lon2
      · rw [if_pos ho] at hlen
        rw [if_neg (by intro hcon; linarith : ¬ lon1 - PI > lon2)]
        intro hcon
        linarith
      · rw [if_neg ho] at hlen
        exfalso
        push_neg at ho
        linarith
    · have hm : mid = lon1 + PI := by rw [hmid, if_neg hw]
      push_neg at hw
      rw [hm]
      by_cases ho : lon1 > lon2
      · rw [if_pos ho] at hlen
        rw [if_pos (by linarith : lon1 + PI > lon2)]
        intro hcon
        linarith
      · rw [if_neg ho] at hlen
        push_neg at ho
        rw [if_neg (by intro hcon; linarith : ¬ lon1 + PI > lon2)]
        intro hcon
        linarith
  have hmrange : 0 ≤ mid ∧ mid < TWICE_PI := by
    by_cases hw : lon1 + PI ≥ TWICE_PI
    · have hm : mid = lon1 - PI := by rw [hmid, if_pos hw, h2pi]; ring
      rw [hm]
      constructor
      · rw [h2pi] at hw
        linarith
      · linarith
    · have hm : mid = lon1 + PI := by rw [hmid, if_neg hw]
      push_neg at hw
      rw [hm]
      constructor
      · linarith
      · linarith
  refine ⟨?_, hmrange.1, hmrange.2⟩
  have r1 : project E lat lon1s mid = projectElse E lat lon1s mid :=
    projectF_one E 1 lat lon1s mid hlen1
  have r2 : project E lat mid lon2 = projectElse E lat mid lon2 :=
    projectF_one E 1 lat mid lon2 hlen2
  show (projectF E (1 + 1) lat lon1 lon2).1 = _
  simp only [projectF, if_pos hlen]
  try dsimp only
  rw [← hws, ← hmideq, if_neg hlen1, if_neg hlen2, r1, r2]

/-- C6 witness: the split of the span [0, 3.2] at mid = PI under the
nowhere-defined projection. -/
theorem project_antipodal_split_witness :
    (project E_none 0 0 3.2).1 = (project E_none 0 0 PI).1 ++ (project E_none 0 PI 3.2).1 ∧
    0 ≤ PI ∧ PI < TWICE_PI :=
  project_antipodal_split E_none 0 0 3.2 PI 0 (by norm_num) (by norm_num [TWICE_PI, PI])
    (by norm_num) (by norm_num [TWICE_PI, PI]) (by norm_num [lon_len, PI])
    (by norm_num [TWICE_PI, PI]) (by norm_num [TWICE_PI, PI])
